import Mathlib

/-!
Shallow embedding of the HonorBot honor ledger and rank-reflection engine
(`bot.py`): the `HonorRepository` store operations, the rank and progress
helpers, the reward-role reconciliation loop, and the role-stripping part of
`update_member_title`, together with theorems checking the specification's
claims against these definitions.
-/

/-- `HONOR_MIN` constant from `bot.py`. -/
def HONOR_MIN : Int := -144000

/-- `HONOR_MAX` constant from `bot.py`. -/
def HONOR_MAX : Int := 144000

/-- `BLESS_AMOUNT` constant from `bot.py`. -/
def BLESS_AMOUNT : Int := 100000

/-- One row of the `honor_log` table: `(user_id, delta, reason, by_user)`.
The timestamp column is left implicit; `honor_log` rows are kept in insertion
order (the auto-increment surrogate id). -/
structure LedgerEntry where
  user_id : Nat
  delta : Int
  reason : String
  by_user : Option Nat
deriving DecidableEq, Repr

/-- One row of the `loot_log` table: `(user_id, ts, reward)`, with the
timestamp modelled as integer seconds of a single wall clock. -/
structure LootEntry where
  user_id : Nat
  ts : Int
  reward : Int
deriving DecidableEq, Repr

/-- The database state behind `HonorRepository`: the `user_honor` table as a
partial map from user id to stored balance, plus the `honor_log`, `daily_bonus`
and `loot_log` tables. -/
structure Store where
  user_honor : Nat → Option Int
  honor_log : List LedgerEntry
  daily_bonus : Nat → Option String
  loot_log : List LootEntry

/-- The state right after `init_db` on a fresh database: all tables empty. -/
def emptyStore : Store :=
  { user_honor := fun _ => none
    honor_log := []
    daily_bonus := fun _ => none
    loot_log := [] }

/-- `HonorRepository.get_user_honor`: `row[0] if row else 0`. -/
def get_user_honor (s : Store) (user_id : Nat) : Int :=
  (s.user_honor user_id).getD 0

/-- The clamp `max(HONOR_MIN, min(HONOR_MAX, value))` from
`HonorRepository.set_user_honor`. -/
def clampHonor (value : Int) : Int :=
  max HONOR_MIN (min HONOR_MAX value)

/-- `HonorRepository.set_user_honor`: upsert of the clamped value into
`user_honor`. -/
def set_user_honor (s : Store) (user_id : Nat) (value : Int) : Store :=
  { s with user_honor := fun u => if u = user_id then some (clampHonor value) else s.user_honor u }

/-- `HonorRepository.log_honor_change`: append one `honor_log` row carrying the
given delta and reason. -/
def log_honor_change (s : Store) (user_id : Nat) (delta : Int) (reason : String)
    (by_user : Option Nat) : Store :=
  { s with honor_log := s.honor_log ++ [⟨user_id, delta, reason, by_user⟩] }

/-- `HonorRepository.add_user_honor`: read current balance, store the clamped
sum, then append the log entry with the requested delta. -/
def add_user_honor (s : Store) (user_id : Nat) (delta : Int) (reason : String)
    (by_user : Option Nat) : Store :=
  log_honor_change (set_user_honor s user_id (get_user_honor s user_id + delta))
    user_id delta reason by_user

/-- `HonorRepository.claim_daily`: upsert today's date (passed in as the
`day` string) into `daily_bonus`. -/
def claim_daily (s : Store) (user_id : Nat) (day : String) : Store :=
  { s with daily_bonus := fun u => if u = user_id then some day else s.daily_bonus u }

/-- `HonorRepository.log_lootbox`: append a `loot_log` row stamped with the
current clock value `now`. -/
def log_lootbox (s : Store) (user_id : Nat) (reward : Int) (now : Int) : Store :=
  { s with loot_log := s.loot_log ++ [⟨user_id, now, reward⟩] }

/-- One store-mutating repository operation.  `addOp` covers every honor
change in the bot (bless, thanks, helped, daily bonus, lootbox reward,
profanity penalty — each is a call to `add_user_honor` with some delta),
`setOp` is the raw write primitive, and the remaining two touch the claim
tables only. -/
inductive HOp
  | addOp (user_id : Nat) (delta : Int) (reason : String) (by_user : Option Nat)
  | setOp (user_id : Nat) (value : Int)
  | claimDailyOp (user_id : Nat) (day : String)
  | logLootOp (user_id : Nat) (reward : Int) (now : Int)

/-- Run one repository operation on the store. -/
def runOp (s : Store) : HOp → Store
  | .addOp u d r b => add_user_honor s u d r b
  | .setOp u v => set_user_honor s u v
  | .claimDailyOp u day => claim_daily s u day
  | .logLootOp u rw now => log_lootbox s u rw now

/-- Run a sequence of repository operations, left to right. -/
def runOps (s : Store) (ops : List HOp) : Store :=
  ops.foldl runOp s

/-- Every balance stored in the `user_honor` table lies in
`[HONOR_MIN, HONOR_MAX]`. -/
def BalancesInRange (s : Store) : Prop :=
  ∀ u v, s.user_honor u = some v → HONOR_MIN ≤ v ∧ v ≤ HONOR_MAX

/-- One entry of the static `RANKS` table: `(threshold, name, emoji, color)`,
with the display colour modelled as a number. -/
structure RankTier where
  threshold : Int
  name : String
  emoji : String
  color : Nat
deriving DecidableEq, Repr

/-- The descending comparison used by `sorted(RANKS, key=lambda x: x[0],
reverse=True)` in `get_rank` and `update_member_title`. -/
def rankDescLe (a b : RankTier) : Bool :=
  decide (b.threshold ≤ a.threshold)

/-- The ascending comparison used by `sorted(RANKS, key=lambda x: x[0])` in
`get_progress_bar`. -/
def rankAscLe (a b : RankTier) : Bool :=
  decide (a.threshold ≤ b.threshold)

/-- The rank table is strictly ascending by threshold (the shape of the
configured `RANKS` data: an ordered table with pairwise-distinct thresholds). -/
def StrictAsc (ranks : List RankTier) : Prop :=
  ranks.Pairwise (fun a b => a.threshold < b.threshold)

instance strictAscDecidable (ranks : List RankTier) : Decidable (StrictAsc ranks) :=
  inferInstanceAs (Decidable (ranks.Pairwise fun a b : RankTier => a.threshold < b.threshold))

/-- The tier selected by `get_rank`: scan the descending-sorted table for the
first tier with `honor >= threshold`; fall back to `RANKS[0]` (none on an
empty table, where the Python code would raise). -/
def get_rank_tier (ranks : List RankTier) (honor : Int) : Option RankTier :=
  match (ranks.mergeSort rankDescLe).find? (fun r => decide (r.threshold ≤ honor)) with
  | some r => some r
  | none => ranks.head?

/-- `get_rank` from `bot.py`: the `(name, emoji, color)` triple of the
selected tier. -/
def get_rank (ranks : List RankTier) (honor : Int) : Option (String × String × Nat) :=
  (get_rank_tier ranks honor).map (fun r => (r.name, r.emoji, r.color))

/-- The three-tier table of the specification's boundary scenario. -/
def demoRanks : List RankTier :=
  [⟨0, "Peasant", "P", 0⟩, ⟨1000, "Knight", "K", 1⟩, ⟨5000, "Lord", "L", 2⟩]

/-- The scan loop of `get_progress_bar`: walk the ascending table with `prev`
tracking the last tier not above the balance; on the first tier above the
balance, stop with that tier as `next`; if none is above, `next` stays the
last tier of the table. -/
def progressLoop (honor : Int) (prev lastR : RankTier) : List RankTier → RankTier × RankTier
  | [] => (prev, lastR)
  | r :: rest => if honor < r.threshold then (prev, r) else progressLoop honor r lastR rest

/-- The `(prev, next_rank)` pair computed by `get_progress_bar` (none on an
empty table, where the Python code would raise on `sorted_ranks[0]`). -/
def progressPair (ranks : List RankTier) (honor : Int) : Option (RankTier × RankTier) :=
  match ranks.mergeSort rankAscLe with
  | [] => none
  | h :: tl => some (progressLoop honor h (tl.getLastD h) (h :: tl))

/-- The `percent` expression of `get_progress_bar` on a `(prev, next)` pair:
`0 if span == 0 else min(max(pos / span, 0), 1)`, with the exact division
modelled over ℚ; the `span == 0` guard keeps the division unevaluated. -/
def fracOf (honor : Int) (pr : RankTier × RankTier) : ℚ :=
  if pr.2.threshold - pr.1.threshold = 0 then 0
  else
    min (max (((honor - pr.1.threshold : Int) : ℚ)
      / ((pr.2.threshold - pr.1.threshold : Int) : ℚ)) 0) 1

/-- The clamped fraction computed by `get_progress_bar`. -/
def progressFraction (ranks : List RankTier) (honor : Int) : Option ℚ :=
  (progressPair ranks honor).map (fracOf honor)

/-- `REWARD_ROLES` from `bot.py`. -/
def REWARD_ROLES : List (Int × String) := [(10000, "VIP"), (50000, "Elite"), (100000, "Star")]

/-- The loop of `check_rewards`, role identity modelled by role name: for each
reward entry, if the role exists in the guild and the member is missing it at
or above the threshold it is added (appended), and if the member holds it
below the threshold it is removed; the result is the member's final role list
together with the lists of added and removed role names in loop order. -/
def check_rewards_loop (honor : Int) (guildRoles : List String) :
    List (Int × String) → List String → List String × List String × List String
  | [], member => (member, [], [])
  | (t, n) :: rest, member =>
    if t ≤ honor ∧ n ∈ guildRoles ∧ n ∉ member then
      ((check_rewards_loop honor guildRoles rest (member ++ [n])).1,
       n :: (check_rewards_loop honor guildRoles rest (member ++ [n])).2.1,
       (check_rewards_loop honor guildRoles rest (member ++ [n])).2.2)
    else if honor < t ∧ n ∈ guildRoles ∧ n ∈ member then
      ((check_rewards_loop honor guildRoles rest (member.filter (fun x => x ≠ n))).1,
       (check_rewards_loop honor guildRoles rest (member.filter (fun x => x ≠ n))).2.1,
       n :: (check_rewards_loop honor guildRoles rest (member.filter (fun x => x ≠ n))).2.2)
    else
      check_rewards_loop honor guildRoles rest member

/-- `check_rewards` from `bot.py`, run over the configured `REWARD_ROLES`
against the observed guild and member role sets. -/
def check_rewards (honor : Int) (guildRoles memberRoles : List String) :
    List String × List String × List String :=
  check_rewards_loop honor guildRoles REWARD_ROLES memberRoles

/-- Result of a repository mutation under injected storage failure: `ok` with
the final store, or `err` with the store state that remains visible after the
failure. -/
inductive OpResult
  | ok (s : Store)
  | err (s : Store)

/-- The store state left visible by an `OpResult`. -/
def OpResult.state : OpResult → Store
  | .ok s => s
  | .err s => s

/-- Whether the operation succeeded. -/
def OpResult.isOk : OpResult → Bool
  | .ok _ => true
  | .err _ => false

/-- `add_user_honor` with failure injection for its two sqlite statements.
In `bot.py` each statement runs in its own `sqlite3.connect` block with its
own `commit()`: if the `set_user_honor` upsert raises, nothing was committed
and the exception propagates; if the later `log_honor_change` insert raises,
the balance upsert has already been committed and stays visible. -/
def add_user_honor_f (failSet failLog : Bool) (s : Store) (user_id : Nat)
    (delta : Int) (reason : String) (by_user : Option Nat) : OpResult :=
  if failSet then .err s
  else if failLog then
    .err (set_user_honor s user_id (get_user_honor s user_id + delta))
  else
    .ok (log_honor_change (set_user_honor s user_id (get_user_honor s user_id + delta))
      user_id delta reason by_user)

/-- The largest timestamp of a list, `none` on the empty list: the value in
the `ts` column selected by `ORDER BY ts DESC LIMIT 1`. -/
def latestTs : List Int → Option Int
  | [] => none
  | t :: ts =>
    match latestTs ts with
    | none => some t
    | some m => some (max t m)

/-- The timestamp of the user's most recent `loot_log` row. -/
def lastLootTs (s : Store) (user_id : Nat) : Option Int :=
  latestTs ((s.loot_log.filter (fun e => e.user_id == user_id)).map LootEntry.ts)

/-- `HonorRepository.can_open_lootbox`: true when the user has no `loot_log`
row, or when at least 86400 seconds of wall-clock time separate `now` from the
most recent row. -/
def can_open_lootbox (s : Store) (user_id : Nat) (now : Int) : Bool :=
  match lastLootTs s user_id with
  | none => true
  | some last => decide (86400 ≤ now - last)

/-- ASCII-only lower-casing: the case folding SQLite's default `LIKE` applies
(case-insensitive for A-Z only). -/
def foldAscii (c : Char) : Char :=
  if 'A' ≤ c ∧ c ≤ 'Z' then Char.ofNat (c.toNat + 32) else c

/-- SQLite's default `LIKE` matcher over character lists: `%` matches any
(possibly empty) run of characters, `_` matches any single character, and
ordinary characters compare ASCII-case-insensitively. -/
def likeMatch : List Char → List Char → Bool
  | [], t => t.isEmpty
  | p :: ps, t =>
    if p = '%' then
      (t.tails).any (fun suffix => likeMatch ps suffix)
    else
      match t with
      | [] => false
      | c :: ts => (p == '_' || foldAscii p == foldAscii c) && likeMatch ps ts

/-- `HonorRepository.get_achievement_count`: count the user's `honor_log` rows
whose reason matches `reason LIKE '%' + query + '%'` (the code interpolates
the query between two `%` wildcards). -/
def get_achievement_count (s : Store) (user_id : Nat) (reason : String) : Nat :=
  (s.honor_log.filter (fun e =>
    e.user_id == user_id
      && likeMatch ('%' :: reason.toList ++ ['%']) e.reason.toList)).length

/-- The counting semantics in the claim's words, for comparison: ledger
entries of the user whose reason contains the query as a case-sensitive
substring. -/
def count_reason_case_sensitive (s : Store) (user_id : Nat) (reason : String) : Nat :=
  (s.honor_log.filter (fun e =>
    e.user_id == user_id && decide (reason.toList <:+: e.reason.toList))).length

/-- A store holding one ledger entry for user 1 with reason `HELPED`. -/
def storeHelped : Store :=
  { emptyStore with honor_log := [⟨1, 30, "HELPED", none⟩] }

/-- An externally observed guild role as `update_member_title` inspects it:
its name, whether it is the guild's default (@everyone) role, and whether its
permission set includes administrator. -/
structure Role where
  name : String
  is_default : Bool
  adminPerm : Bool
deriving DecidableEq, Repr

/-- The skip test of the removal loop in `update_member_title`: a role is kept
iff it is the default role, its permissions include administrator, or its
lower-cased name contains `mod` or `admin` (lower-casing modelled for the
ASCII letters the role names use). -/
def keepRole (r : Role) : Bool :=
  r.is_default || r.adminPerm
    || decide ("mod".toList <:+: (r.name.toList.map foldAscii))
    || decide ("admin".toList <:+: (r.name.toList.map foldAscii))

/-- The removal pass of `update_member_title`: the member roles it attempts to
remove, in order. -/
def update_member_title_removals (memberRoles : List Role) : List Role :=
  memberRoles.filter (fun r => !(keepRole r))

/-- The member roles surviving the removal pass (before the target rank role
is added back). -/
def update_member_title_kept (memberRoles : List Role) : List Role :=
  memberRoles.filter keepRole

lemma clampHonor_mem (value : Int) :
    HONOR_MIN ≤ clampHonor value ∧ clampHonor value ≤ HONOR_MAX := by
  unfold clampHonor HONOR_MIN HONOR_MAX
  constructor
  · exact le_max_left _ _
  · apply max_le
    · norm_num
    · exact min_le_left _ _

lemma set_user_honor_range (s : Store) (u : Nat) (v : Int)
    (h : BalancesInRange s) : BalancesInRange (set_user_honor s u v) := by
  intro u' v' hv'
  simp only [set_user_honor] at hv'
  by_cases hu : u' = u
  · subst hu
    rw [if_pos rfl, Option.some_inj] at hv'
    exact hv' ▸ clampHonor_mem v
  · simp only [if_neg hu] at hv'
    exact h u' v' hv'

lemma runOp_range (s : Store) (o : HOp) (h : BalancesInRange s) :
    BalancesInRange (runOp s o) := by
  cases o with
  | addOp u d r b => exact set_user_honor_range s u _ h
  | setOp u v => exact set_user_honor_range s u v h
  | claimDailyOp u day => exact h
  | logLootOp u rw now => exact h

lemma runOps_range (ops : List HOp) (s : Store) (h : BalancesInRange s) :
    BalancesInRange (runOps s ops) := by
  induction ops generalizing s with
  | nil => exact h
  | cons o rest ih => exact ih (runOp s o) (runOp_range s o h)

lemma get_after_add (s : Store) (u : Nat) (d : Int) (r : String) (b : Option Nat) :
    get_user_honor (add_user_honor s u d r b) u
      = clampHonor (get_user_honor s u + d) := by
  simp [add_user_honor, log_honor_change, set_user_honor, get_user_honor]

/-- Claim C1: `add_user_honor` reads the current balance (0 when the user has
no `user_honor` row), persists `clampHonor (current + delta)`, and the clamp
is applied to the running total at each step: starting from a fresh store,
applying +100000 twice leaves the balance at 144000, not 200000. -/
theorem C1_apply_delta_clamps_each_step :
    (∀ s u, s.user_honor u = none → get_user_honor s u = 0)
    ∧ (∀ s u d r b,
        get_user_honor (add_user_honor s u d r b) u
          = clampHonor (get_user_honor s u + d))
    ∧ get_user_honor
        (add_user_honor (add_user_honor emptyStore 1 100000 "" none) 1 100000 "" none) 1
      = 144000 := by
  refine ⟨?_, ?_, ?_⟩
  · intro s u h
    simp [get_user_honor, h]
  · intro s u d r b
    exact get_after_add s u d r b
  · decide

/-- Witness for C1 at concrete inputs: a fresh store has balance 0 for user 2,
and a single +5 application lands on the clamp of 0 + 5. -/
theorem C1_apply_delta_clamps_each_step_witness :
    get_user_honor emptyStore 2 = 0
    ∧ get_user_honor (add_user_honor emptyStore 2 5 "" none) 2
        = clampHonor (get_user_honor emptyStore 2 + 5) :=
  ⟨C1_apply_delta_clamps_each_step.1 emptyStore 2 rfl,
   C1_apply_delta_clamps_each_step.2.1 emptyStore 2 5 "" none⟩

/-- Claim C2: `add_user_honor` appends exactly one `honor_log` row carrying the
requested delta, even when the clamp reduced the effective balance change;
after applying +100000 twice from a fresh store, the log holds exactly two
entries of +100000 each. -/
theorem C2_ledger_logs_requested_delta :
    (∀ s u d r b,
      (add_user_honor s u d r b).honor_log = s.honor_log ++ [⟨u, d, r, b⟩])
    ∧ (add_user_honor (add_user_honor emptyStore 1 100000 "" none) 1 100000 "" none).honor_log
        = [⟨1, 100000, "", none⟩, ⟨1, 100000, "", none⟩] := by
  constructor
  · intro s u d r b
    simp [add_user_honor, log_honor_change, set_user_honor]
  · decide

/-- Claim C3: after any sequence of repository operations starting from a
fresh store, every balance stored in `user_honor` lies in
`[HONOR_MIN, HONOR_MAX]`. -/
theorem C3_stored_balances_in_range (ops : List HOp) (u : Nat) (v : Int)
    (h : (runOps emptyStore ops).user_honor u = some v) :
    HONOR_MIN ≤ v ∧ v ≤ HONOR_MAX := by
  have hinv : BalancesInRange emptyStore := by
    intro u' v' hv'
    simp [emptyStore] at hv'
  exact runOps_range ops emptyStore hinv u v h

/-- Witness for C3: the concrete trace bless-then-penalty leaves user 1 with a
stored balance of 0, which the theorem certifies to be in range. -/
theorem C3_stored_balances_in_range_witness :
    HONOR_MIN ≤ (0 : Int) ∧ (0 : Int) ≤ HONOR_MAX :=
  C3_stored_balances_in_range
    [.addOp 1 100000 "" none, .addOp 1 (-100000) "Beleidigung" (some 1)] 1 0
    (by decide)

lemma perm_desc_nodup_eq :
    ∀ {l₁ l₂ : List RankTier}, l₁.Perm l₂ →
      l₁.Pairwise (fun a b => b.threshold ≤ a.threshold) →
      l₂.Pairwise (fun a b => b.threshold ≤ a.threshold) →
      (l₁.map RankTier.threshold).Nodup → l₁ = l₂ := by
  intro l₁
  induction l₁ with
  | nil =>
    intro l₂ p _ _ _
    exact (p.symm.eq_nil).symm
  | cons a t₁ ih =>
    intro l₂ p h₁ h₂ hnd
    cases l₂ with
    | nil => exact absurd p.eq_nil (by simp)
    | cons b t₂ =>
      by_cases hab : a = b
      · subst hab
        have htail : t₁ = t₂ :=
          ih p.cons_inv (List.pairwise_cons.mp h₁).2 (List.pairwise_cons.mp h₂).2
            (by simpa using (List.nodup_cons.mp (by simpa using hnd)).2)
        rw [htail]
      · have ha2 : a ∈ t₂ := by
          have := p.subset (List.mem_cons_self a t₁)
          simpa [hab] using this
        have hb1 : b ∈ t₁ := by
          have hmem := p.symm.subset (List.mem_cons_self b t₂)
          rcases List.mem_cons.mp hmem with h | h
          · exact absurd h.symm hab
          · exact h
        have hba : a.threshold ≤ b.threshold := (List.pairwise_cons.mp h₂).1 a ha2
        have hab' : b.threshold ≤ a.threshold := (List.pairwise_cons.mp h₁).1 b hb1
        have heq : a.threshold = b.threshold := le_antisymm hba hab'
        exfalso
        have hnotin : a.threshold ∉ t₁.map RankTier.threshold :=
          (List.nodup_cons.mp (by simpa using hnd)).1
        exact hnotin (heq ▸ List.mem_map_of_mem RankTier.threshold hb1)

lemma strictAsc_nodup_thresholds {ranks : List RankTier} (hs : StrictAsc ranks) :
    (ranks.map RankTier.threshold).Nodup := by
  unfold List.Nodup
  exact List.pairwise_map.mpr (hs.imp fun h => ne_of_lt h)

/-- On a strictly ascending table, the Python descending sort is exactly the
reversed table. -/
lemma sortDesc_eq_reverse {ranks : List RankTier} (hs : StrictAsc ranks) :
    ranks.mergeSort rankDescLe = ranks.reverse := by
  apply perm_desc_nodup_eq
  · exact (List.mergeSort_perm ranks rankDescLe).trans (List.reverse_perm ranks).symm
  · have h := @List.sorted_mergeSort RankTier rankDescLe
      (fun a b c hab hbc => by
        simp only [rankDescLe, decide_eq_true_eq] at *
        exact le_trans hbc hab)
      (fun a b => by
        simp only [rankDescLe]
        rcases le_total a.threshold b.threshold with h | h <;> simp [h])
      ranks
    exact h.imp (fun hx => by simpa [rankDescLe] using hx)
  · have : ranks.reverse.Pairwise (fun a b : RankTier => b.threshold < a.threshold) :=
      List.pairwise_reverse.mpr hs
    exact this.imp fun h => le_of_lt h
  · have hperm := (List.mergeSort_perm ranks rankDescLe).map RankTier.threshold
    exact hperm.nodup_iff.mpr (strictAsc_nodup_thresholds hs)

lemma find?_desc_at_threshold :
    ∀ {l : List RankTier}, l.Pairwise (fun a b => b.threshold < a.threshold) →
      ∀ t ∈ l, l.find? (fun r => decide (r.threshold ≤ t.threshold)) = some t := by
  intro l
  induction l with
  | nil => intro _ t ht; cases ht
  | cons r rest ih =>
    intro hp t ht
    rcases List.pairwise_cons.mp hp with ⟨hhead, hrest⟩
    rcases List.mem_cons.mp ht with rfl | htr
    · exact List.find?_cons_of_pos _ (by simp)
    · have hlt : t.threshold < r.threshold := hhead t htr
      rw [List.find?_cons_of_neg _ (by simp; omega)]
      exact ih hrest t htr

lemma find?_desc_greatest :
    ∀ {l : List RankTier} {honor : Int} {t : RankTier},
      l.Pairwise (fun a b => b.threshold < a.threshold) →
      l.find? (fun r => decide (r.threshold ≤ honor)) = some t →
      t ∈ l ∧ t.threshold ≤ honor ∧ ∀ r ∈ l, r.threshold ≤ honor → r.threshold ≤ t.threshold := by
  intro l
  induction l with
  | nil => intro honor t _ h; simp at h
  | cons r rest ih =>
    intro honor t hp hfind
    rcases List.pairwise_cons.mp hp with ⟨hhead, hrest⟩
    by_cases hr : r.threshold ≤ honor
    · rw [List.find?_cons_of_pos _ (by simpa using hr)] at hfind
      obtain rfl : r = t := by simpa using hfind
      refine ⟨List.mem_cons_self _ _, hr, ?_⟩
      intro x hx _
      rcases List.mem_cons.mp hx with rfl | hx'
      · exact le_refl _
      · exact le_of_lt (hhead x hx')
    · rw [List.find?_cons_of_neg _ (by simpa using hr)] at hfind
      obtain ⟨hmem, hle, hmax⟩ := ih hrest hfind
      refine ⟨List.mem_cons_of_mem _ hmem, hle, ?_⟩
      intro x hx hxh
      rcases List.mem_cons.mp hx with rfl | hx'
      · exact absurd hxh hr
      · exact hmax x hx' hxh

/-- Claim C4: `get_rank` scans the tiers from highest threshold to lowest and
returns the first (i.e. greatest-threshold) tier whose threshold is at most
the balance, falls back to the head of the ascending table — the
lowest-threshold tier — when the balance is below every threshold, is total on
non-empty tables, maps every configured threshold to exactly its own tier, and
on the `[(0,Peasant),(1000,Knight),(5000,Lord)]` table sends 999 to Peasant
and 1000 to Knight. -/
theorem C4_get_rank_resolution :
    (∀ ranks honor, StrictAsc ranks → ranks ≠ [] →
      ∃ out, get_rank ranks honor = some out)
    ∧ (∀ ranks honor t, StrictAsc ranks → get_rank_tier ranks honor = some t →
        (∃ r ∈ ranks, r.threshold ≤ honor) →
        t ∈ ranks ∧ t.threshold ≤ honor
          ∧ ∀ r ∈ ranks, r.threshold ≤ honor → r.threshold ≤ t.threshold)
    ∧ (∀ ranks honor, StrictAsc ranks → (∀ r ∈ ranks, honor < r.threshold) →
        get_rank_tier ranks honor = ranks.head?
          ∧ ∀ r₀, ranks.head? = some r₀ → ∀ r ∈ ranks, r₀.threshold ≤ r.threshold)
    ∧ (∀ ranks t, StrictAsc ranks → t ∈ ranks →
        get_rank ranks t.threshold = some (t.name, t.emoji, t.color))
    ∧ get_rank demoRanks 999 = some ("Peasant", "P", 0)
    ∧ get_rank demoRanks 1000 = some ("Knight", "K", 1) := by
  have hdesc : ∀ {ranks : List RankTier}, StrictAsc ranks →
      ranks.reverse.Pairwise (fun a b => b.threshold < a.threshold) :=
    fun hs => List.pairwise_reverse.mpr hs
  have htier : ∀ ranks t, StrictAsc ranks → t ∈ ranks →
      get_rank_tier ranks t.threshold = some t := by
    intro ranks t hs ht
    unfold get_rank_tier
    rw [sortDesc_eq_reverse hs,
      find?_desc_at_threshold (hdesc hs) t (List.mem_reverse.mpr ht)]
  refine ⟨?_, ?_, ?_, ?_, ?_, ?_⟩
  · intro ranks honor hs hne
    unfold get_rank get_rank_tier
    cases hfind : (ranks.mergeSort rankDescLe).find? (fun r => decide (r.threshold ≤ honor)) with
    | some r => exact ⟨(r.name, r.emoji, r.color), rfl⟩
    | none =>
      cases ranks with
      | nil => exact absurd rfl hne
      | cons a tl => exact ⟨(a.name, a.emoji, a.color), rfl⟩
  · intro ranks honor t hs htier' hex
    unfold get_rank_tier at htier'
    rw [sortDesc_eq_reverse hs] at htier'
    cases hfind : ranks.reverse.find? (fun r => decide (r.threshold ≤ honor)) with
    | some r =>
      rw [hfind] at htier'
      obtain rfl : r = t := by simpa using htier'
      obtain ⟨hmem, hle, hmax⟩ := find?_desc_greatest (hdesc hs) hfind
      exact ⟨List.mem_reverse.mp hmem, hle,
        fun x hx hxh => hmax x (List.mem_reverse.mpr hx) hxh⟩
    | none =>
      obtain ⟨r, hr, hrle⟩ := hex
      have := List.find?_eq_none.mp hfind r (List.mem_reverse.mpr hr)
      simp [hrle] at this
  · intro ranks honor hs hbelow
    constructor
    · unfold get_rank_tier
      rw [sortDesc_eq_reverse hs]
      rw [List.find?_eq_none.mpr (fun x hx => by
        have := hbelow x (List.mem_reverse.mp hx)
        simp
        omega)]
    · intro r₀ hr₀ r hr
      cases ranks with
      | nil => cases hr
      | cons a tl =>
        obtain rfl : a = r₀ := by simpa using hr₀
        rcases List.mem_cons.mp hr with rfl | hr'
        · exact le_refl _
        · exact le_of_lt ((List.pairwise_cons.mp hs).1 r hr')
  · intro ranks t hs ht
    unfold get_rank
    rw [htier ranks t hs ht]
    rfl
  · unfold get_rank get_rank_tier
    rw [sortDesc_eq_reverse (by decide : StrictAsc demoRanks)]
    decide
  · unfold get_rank get_rank_tier
    rw [sortDesc_eq_reverse (by decide : StrictAsc demoRanks)]
    decide

/-- Witness for C4: instantiating every hypothesis-carrying conjunct at the
demo table. -/
theorem C4_get_rank_resolution_witness :
    (∃ out, get_rank demoRanks 999 = some out)
    ∧ get_rank demoRanks 5000 = some ("Lord", "L", 2)
    ∧ get_rank_tier demoRanks (-7) = demoRanks.head? :=
  ⟨C4_get_rank_resolution.1 demoRanks 999 (by decide) (by decide),
   C4_get_rank_resolution.2.2.2.1 demoRanks ⟨5000, "Lord", "L", 2⟩ (by decide)
     (by decide),
   (C4_get_rank_resolution.2.2.1 demoRanks (-7) (by decide) (by decide)).1⟩

lemma sortAsc_eq_self {ranks : List RankTier} (hs : StrictAsc ranks) :
    ranks.mergeSort rankAscLe = ranks :=
  List.mergeSort_of_sorted (hs.imp fun h => by
    simp only [rankAscLe, decide_eq_true_eq]
    exact le_of_lt h)

lemma progressPair_eq {ranks : List RankTier} {h : RankTier} {tl : List RankTier}
    (honor : Int) (hs : StrictAsc ranks) (hht : ranks = h :: tl) :
    progressPair ranks honor = some (progressLoop honor h (tl.getLastD h) (h :: tl)) := by
  unfold progressPair
  rw [sortAsc_eq_self hs, hht]

lemma progressLoop_all_le (honor : Int) :
    ∀ (l : List RankTier) (p lastR : RankTier),
      (∀ r ∈ l, r.threshold ≤ honor) →
      progressLoop honor p lastR l = (l.getLastD p, lastR) := by
  intro l
  induction l with
  | nil => intro p lastR _; rfl
  | cons r rest ih =>
    intro p lastR hall
    have hr : r.threshold ≤ honor := hall r (List.mem_cons_self r rest)
    simp only [progressLoop, if_neg (not_lt.mpr hr)]
    rw [ih r lastR (fun x hx => hall x (List.mem_cons_of_mem r hx)), List.getLastD_cons]

lemma progressLoop_break (honor : Int) :
    ∀ (l₁ : List RankTier) (r : RankTier) (l₂ : List RankTier) (p lastR : RankTier),
      (∀ x ∈ l₁, x.threshold ≤ honor) → honor < r.threshold →
      progressLoop honor p lastR (l₁ ++ r :: l₂) = (l₁.getLastD p, r) := by
  intro l₁
  induction l₁ with
  | nil =>
    intro r l₂ p lastR _ hr
    simp only [List.nil_append, progressLoop, if_pos hr]
    rfl
  | cons x xs ih =>
    intro r l₂ p lastR hall hr
    have hx : x.threshold ≤ honor := hall x (List.mem_cons_self x xs)
    show progressLoop honor p lastR (x :: (xs ++ r :: l₂)) = _
    simp only [progressLoop, if_neg (not_lt.mpr hx)]
    rw [ih r l₂ x lastR (fun y hy => hall y (List.mem_cons_of_mem x hy)) hr,
      List.getLastD_cons]

lemma progressPair_all_le {ranks : List RankTier} {h : RankTier} {tl : List RankTier}
    (honor : Int) (hs : StrictAsc ranks) (hht : ranks = h :: tl)
    (hall : ∀ r ∈ ranks, r.threshold ≤ honor) :
    progressPair ranks honor = some (tl.getLastD h, tl.getLastD h) := by
  rw [progressPair_eq honor hs hht]
  rw [progressLoop_all_le honor (h :: tl) h (tl.getLastD h) (hht ▸ hall),
    List.getLastD_cons]

lemma fracOf_bounds (honor : Int) (pr : RankTier × RankTier) :
    0 ≤ fracOf honor pr ∧ fracOf honor pr ≤ 1 := by
  unfold fracOf
  by_cases hspan : pr.2.threshold - pr.1.threshold = 0
  · rw [if_pos hspan]
    exact ⟨le_refl 0, zero_le_one⟩
  · rw [if_neg hspan]
    exact ⟨le_min (le_max_right _ _) zero_le_one, min_le_right _ _⟩

lemma fracOf_same (honor : Int) (t : RankTier) : fracOf honor (t, t) = 0 := by
  simp [fracOf]

lemma fracOf_at_lower (t nxt : RankTier) (hlt : t.threshold < nxt.threshold) :
    fracOf t.threshold (t, nxt) = 0 := by
  show (if nxt.threshold - t.threshold = 0 then (0 : ℚ)
    else min (max (((t.threshold - t.threshold : Int) : ℚ)
      / ((nxt.threshold - t.threshold : Int) : ℚ)) 0) 1) = 0
  rw [if_neg (by omega)]
  simp

/-- Claim C9: the fraction computed by `get_progress_bar` always lies in
`[0, 1]`; at a configured tier's exact threshold the fraction is 0; and when
the balance is at or above every threshold the computed span is 0, the guarded
division is never evaluated, and the fraction is defined as 0. -/
theorem C9_progress_fraction_bounds :
    (∀ ranks honor q, progressFraction ranks honor = some q → 0 ≤ q ∧ q ≤ 1)
    ∧ (∀ ranks t, StrictAsc ranks → t ∈ ranks →
        progressFraction ranks t.threshold = some 0)
    ∧ (∀ ranks honor, StrictAsc ranks → ranks ≠ [] →
        (∀ r ∈ ranks, r.threshold ≤ honor) →
        (∃ lastT, progressPair ranks honor = some (lastT, lastT))
          ∧ progressFraction ranks honor = some 0) := by
  refine ⟨?_, ?_, ?_⟩
  · intro ranks honor q hq
    unfold progressFraction at hq
    cases hpair : progressPair ranks honor with
    | none => rw [hpair] at hq; cases hq
    | some pr =>
      rw [hpair] at hq
      have hq' : fracOf honor pr = q := by
        have h2 : some (fracOf honor pr) = some q := hq
        exact Option.some_inj.mp h2
      exact hq' ▸ fracOf_bounds honor pr
  · intro ranks t hs ht
    have hs' : ranks.Pairwise (fun a b => a.threshold < b.threshold) := hs
    obtain ⟨l₁, l₂, hdec⟩ := List.append_of_mem ht
    obtain ⟨h, tl, hranks⟩ : ∃ h tl, ranks = h :: tl := by
      cases ranks with
      | nil => cases ht
      | cons a b => exact ⟨a, b, rfl⟩
    cases l₂ with
    | nil =>
      have hall : ∀ r ∈ ranks, r.threshold ≤ t.threshold := by
        intro r hr
        rw [hdec] at hr hs'
        rcases List.mem_append.mp hr with h1 | h2
        · exact le_of_lt ((List.pairwise_append.mp hs').2.2 r h1 t
            (List.mem_cons_self t []))
        · have : r = t := by simpa using h2
          exact this ▸ le_refl _
      unfold progressFraction
      rw [progressPair_all_le t.threshold hs hranks hall]
      have hlast : tl.getLastD h = t := by
        have h1 : (h :: tl).getLastD h = t := by
          rw [← hranks, hdec, List.getLastD_concat]
        rw [← h1, List.getLastD_cons]
      rw [hlast]
      simp [fracOf_same]
    | cons rN l₂' =>
      have hallpre : ∀ x ∈ l₁ ++ [t], x.threshold ≤ t.threshold := by
        intro x hx
        rcases List.mem_append.mp hx with h1 | h2
        · have hx' := (List.pairwise_append.mp (hdec ▸ hs')).2.2 x h1 t
            (List.mem_cons_self t (rN :: l₂'))
          exact le_of_lt hx'
        · have : x = t := by simpa using h2
          exact this ▸ le_refl _
      have hrN : t.threshold < rN.threshold := by
        have hp := (List.pairwise_append.mp (hdec ▸ hs')).2.1
        exact (List.pairwise_cons.mp hp).1 rN (List.mem_cons_self rN l₂')
      have hshape : h :: tl = (l₁ ++ [t]) ++ rN :: l₂' := by
        rw [← hranks, hdec]
        simp
      unfold progressFraction
      rw [progressPair_eq t.threshold hs hranks, hshape,
        progressLoop_break t.threshold (l₁ ++ [t]) rN l₂' h (tl.getLastD h)
          hallpre hrN, List.getLastD_concat]
      simp [fracOf_at_lower t rN hrN]
  · intro ranks honor hs hne hall
    obtain ⟨h, tl, hranks⟩ : ∃ h tl, ranks = h :: tl := by
      cases ranks with
      | nil => exact absurd rfl hne
      | cons a b => exact ⟨a, b, rfl⟩
    refine ⟨⟨tl.getLastD h, progressPair_all_le honor hs hranks hall⟩, ?_⟩
    unfold progressFraction
    rw [progressPair_all_le honor hs hranks hall]
    simp [fracOf_same]

/-- Witness for C9 at the demo table: the fraction at Knight's exact threshold
is 0 (hence inside `[0, 1]`), and far above Lord the pair degenerates with
fraction 0. -/
theorem C9_progress_fraction_bounds_witness :
    (0 ≤ (0 : ℚ) ∧ (0 : ℚ) ≤ 1)
    ∧ progressFraction demoRanks 1000 = some 0
    ∧ ((∃ lastT, progressPair demoRanks 99999 = some (lastT, lastT))
        ∧ progressFraction demoRanks 99999 = some 0) :=
  ⟨C9_progress_fraction_bounds.1 demoRanks 1000 0
      (C9_progress_fraction_bounds.2.1 demoRanks ⟨1000, "Knight", "K", 1⟩
        (by decide) (by decide)),
   C9_progress_fraction_bounds.2.1 demoRanks ⟨1000, "Knight", "K", 1⟩
     (by decide) (by decide),
   C9_progress_fraction_bounds.2.2 demoRanks 99999 (by decide) (by decide)
     (by decide)⟩

lemma check_rewards_loop_preserve (honor : Int) (g : List String) :
    ∀ (rr : List (Int × String)) (m : List String) (x : String),
      x ∉ rr.map Prod.snd →
      (x ∈ (check_rewards_loop honor g rr m).1 ↔ x ∈ m) := by
  intro rr
  induction rr with
  | nil => intro m x _; exact Iff.rfl
  | cons p rest ih =>
    obtain ⟨t, n⟩ := p
    intro m x hx
    have hxn : x ≠ n := by
      intro he
      exact hx (he ▸ List.mem_cons_self _ _)
    have hxr : x ∉ rest.map Prod.snd := fun hmem => hx (List.mem_cons_of_mem _ hmem)
    by_cases c1 : t ≤ honor ∧ n ∈ g ∧ n ∉ m
    · simp only [check_rewards_loop, if_pos c1]
      rw [ih (m ++ [n]) x hxr]
      simp [hxn]
    · by_cases c2 : honor < t ∧ n ∈ g ∧ n ∈ m
      · simp only [check_rewards_loop, if_neg c1, if_pos c2]
        rw [ih (m.filter (fun y => y ≠ n)) x hxr]
        simp [hxn]
      · simp only [check_rewards_loop, if_neg c1, if_neg c2]
        exact ih m x hxr

lemma check_rewards_loop_diff (honor : Int) (g : List String) :
    ∀ (rr : List (Int × String)) (m : List String), (rr.map Prod.snd).Nodup →
      (check_rewards_loop honor g rr m).2.1
          = (rr.filter (fun p => decide (p.1 ≤ honor ∧ p.2 ∈ g ∧ p.2 ∉ m))).map Prod.snd
        ∧ (check_rewards_loop honor g rr m).2.2
          = (rr.filter (fun p => decide (honor < p.1 ∧ p.2 ∈ g ∧ p.2 ∈ m))).map Prod.snd := by
  intro rr
  induction rr with
  | nil => intro m _; exact ⟨rfl, rfl⟩
  | cons pr rest ih =>
    obtain ⟨t, n⟩ := pr
    intro m hnd
    have hn : n ∉ rest.map Prod.snd := (List.nodup_cons.mp hnd).1
    have hnd' : (rest.map Prod.snd).Nodup := (List.nodup_cons.mp hnd).2
    have hpn : ∀ p ∈ rest, p.2 ≠ n :=
      fun p hp he => hn (he ▸ List.mem_map_of_mem Prod.snd hp)
    by_cases c1 : t ≤ honor ∧ n ∈ g ∧ n ∉ m
    · have hcadd : rest.filter (fun p => decide (p.1 ≤ honor ∧ p.2 ∈ g ∧ p.2 ∉ (m ++ [n])))
          = rest.filter (fun p => decide (p.1 ≤ honor ∧ p.2 ∈ g ∧ p.2 ∉ m)) := by
        apply List.filter_congr
        intro p hp
        simp [List.mem_append, hpn p hp]
      have hcrem : rest.filter (fun p => decide (honor < p.1 ∧ p.2 ∈ g ∧ p.2 ∈ (m ++ [n])))
          = rest.filter (fun p => decide (honor < p.1 ∧ p.2 ∈ g ∧ p.2 ∈ m)) := by
        apply List.filter_congr
        intro p hp
        simp [List.mem_append, hpn p hp]
      simp only [check_rewards_loop, if_pos c1]
      constructor
      · rw [(ih (m ++ [n]) hnd').1, hcadd, List.filter_cons]
        simp [c1]
      · rw [(ih (m ++ [n]) hnd').2, hcrem, List.filter_cons]
        have : ¬(honor < t ∧ n ∈ g ∧ n ∈ m) := by
          intro hc
          omega
        simp [this]
    · by_cases c2 : honor < t ∧ n ∈ g ∧ n ∈ m
      · have hmem : ∀ p ∈ rest,
            (p.2 ∈ m.filter (fun y => y ≠ n)) = (p.2 ∈ m) := by
          intro p hp
          simp [List.mem_filter, hpn p hp]
        have hcadd : rest.filter
              (fun p => decide (p.1 ≤ honor ∧ p.2 ∈ g ∧ p.2 ∉ m.filter (fun y => y ≠ n)))
            = rest.filter (fun p => decide (p.1 ≤ honor ∧ p.2 ∈ g ∧ p.2 ∉ m)) := by
          apply List.filter_congr
          intro p hp
          simp [List.mem_filter, hpn p hp]
        have hcrem : rest.filter
              (fun p => decide (honor < p.1 ∧ p.2 ∈ g ∧ p.2 ∈ m.filter (fun y => y ≠ n)))
            = rest.filter (fun p => decide (honor < p.1 ∧ p.2 ∈ g ∧ p.2 ∈ m)) := by
          apply List.filter_congr
          intro p hp
          simp [List.mem_filter, hpn p hp]
        simp only [check_rewards_loop, if_neg c1, if_pos c2]
        constructor
        · rw [(ih (m.filter (fun y => y ≠ n)) hnd').1, hcadd, List.filter_cons]
          have : ¬(t ≤ honor ∧ n ∈ g ∧ n ∉ m) := c1
          simp [this]
        · rw [(ih (m.filter (fun y => y ≠ n)) hnd').2, hcrem, List.filter_cons]
          simp [c2]
      · simp only [check_rewards_loop, if_neg c1, if_neg c2]
        constructor
        · rw [(ih m hnd').1, List.filter_cons]
          simp [c1]
        · rw [(ih m hnd').2, List.filter_cons]
          simp [c2]

lemma check_rewards_loop_fix (honor : Int) (g : List String) :
    ∀ (rr : List (Int × String)) (m : List String), (rr.map Prod.snd).Nodup →
      check_rewards_loop honor g rr ((check_rewards_loop honor g rr m).1)
        = ((check_rewards_loop honor g rr m).1, [], []) := by
  intro rr
  induction rr with
  | nil => intro m _; rfl
  | cons pr rest ih =>
    obtain ⟨t, n⟩ := pr
    intro m hnd
    have hn : n ∉ rest.map Prod.snd := (List.nodup_cons.mp hnd).1
    have hnd' : (rest.map Prod.snd).Nodup := (List.nodup_cons.mp hnd).2
    by_cases hg : n ∈ g
    · by_cases hth : t ≤ honor
      · by_cases hm : n ∈ m
        · have c1 : ¬(t ≤ honor ∧ n ∈ g ∧ n ∉ m) := fun hc => hc.2.2 hm
          have c2 : ¬(honor < t ∧ n ∈ g ∧ n ∈ m) := fun hc => by omega
          have hM : (check_rewards_loop honor g ((t, n) :: rest) m).1
              = (check_rewards_loop honor g rest m).1 := by
            simp only [check_rewards_loop, if_neg c1, if_neg c2]
          rw [hM]
          have hmem : n ∈ (check_rewards_loop honor g rest m).1 :=
            (check_rewards_loop_preserve honor g rest m n hn).mpr hm
          have d1 : ¬(t ≤ honor ∧ n ∈ g ∧ n ∉ (check_rewards_loop honor g rest m).1) :=
            fun hc => hc.2.2 hmem
          have d2 : ¬(honor < t ∧ n ∈ g ∧ n ∈ (check_rewards_loop honor g rest m).1) :=
            fun hc => by omega
          simp only [check_rewards_loop, if_neg d1, if_neg d2]
          exact ih m hnd'
        · have c1 : t ≤ honor ∧ n ∈ g ∧ n ∉ m := ⟨hth, hg, hm⟩
          have hM : (check_rewards_loop honor g ((t, n) :: rest) m).1
              = (check_rewards_loop honor g rest (m ++ [n])).1 := by
            simp only [check_rewards_loop, if_pos c1]
          rw [hM]
          have hmem : n ∈ (check_rewards_loop honor g rest (m ++ [n])).1 :=
            (check_rewards_loop_preserve honor g rest (m ++ [n]) n hn).mpr (by simp)
          have d1 : ¬(t ≤ honor ∧ n ∈ g
              ∧ n ∉ (check_rewards_loop honor g rest (m ++ [n])).1) :=
            fun hc => hc.2.2 hmem
          have d2 : ¬(honor < t ∧ n ∈ g
              ∧ n ∈ (check_rewards_loop honor g rest (m ++ [n])).1) :=
            fun hc => by omega
          simp only [check_rewards_loop, if_neg d1, if_neg d2]
          exact ih (m ++ [n]) hnd'
      · by_cases hm : n ∈ m
        · have c1 : ¬(t ≤ honor ∧ n ∈ g ∧ n ∉ m) := fun hc => hth hc.1
          have c2 : honor < t ∧ n ∈ g ∧ n ∈ m := ⟨by omega, hg, hm⟩
          have hM : (check_rewards_loop honor g ((t, n) :: rest) m).1
              = (check_rewards_loop honor g rest (m.filter (fun y => y ≠ n))).1 := by
            simp only [check_rewards_loop, if_neg c1, if_pos c2]
          rw [hM]
          have hnot : n ∉ (check_rewards_loop honor g rest (m.filter (fun y => y ≠ n))).1 := by
            rw [check_rewards_loop_preserve honor g rest _ n hn]
            simp
          have d1 : ¬(t ≤ honor ∧ n ∈ g
              ∧ n ∉ (check_rewards_loop honor g rest (m.filter (fun y => y ≠ n))).1) :=
            fun hc => hth hc.1
          have d2 : ¬(honor < t ∧ n ∈ g
              ∧ n ∈ (check_rewards_loop honor g rest (m.filter (fun y => y ≠ n))).1) :=
            fun hc => hnot hc.2.2
          simp only [check_rewards_loop, if_neg d1, if_neg d2]
          exact ih (m.filter (fun y => y ≠ n)) hnd'
        · have c1 : ¬(t ≤ honor ∧ n ∈ g ∧ n ∉ m) := fun hc => hth hc.1
          have c2 : ¬(honor < t ∧ n ∈ g ∧ n ∈ m) := fun hc => hm hc.2.2
          have hM : (check_rewards_loop honor g ((t, n) :: rest) m).1
              = (check_rewards_loop honor g rest m).1 := by
            simp only [check_rewards_loop, if_neg c1, if_neg c2]
          rw [hM]
          have hnot : n ∉ (check_rewards_loop honor g rest m).1 := by
            rw [check_rewards_loop_preserve honor g rest m n hn]
            exact hm
          have d1 : ¬(t ≤ honor ∧ n ∈ g ∧ n ∉ (check_rewards_loop honor g rest m).1) :=
            fun hc => hth hc.1
          have d2 : ¬(honor < t ∧ n ∈ g ∧ n ∈ (check_rewards_loop honor g rest m).1) :=
            fun hc => hnot hc.2.2
          simp only [check_rewards_loop, if_neg d1, if_neg d2]
          exact ih m hnd'
    · have c1 : ¬(t ≤ honor ∧ n ∈ g ∧ n ∉ m) := fun hc => hg hc.2.1
      have c2 : ¬(honor < t ∧ n ∈ g ∧ n ∈ m) := fun hc => hg hc.2.1
      have hM : (check_rewards_loop honor g ((t, n) :: rest) m).1
          = (check_rewards_loop honor g rest m).1 := by
        simp only [check_rewards_loop, if_neg c1, if_neg c2]
      rw [hM]
      have d1 : ¬(t ≤ honor ∧ n ∈ g ∧ n ∉ (check_rewards_loop honor g rest m).1) :=
        fun hc => hg hc.2.1
      have d2 : ¬(honor < t ∧ n ∈ g ∧ n ∈ (check_rewards_loop honor g rest m).1) :=
        fun hc => hg hc.2.1
      simp only [check_rewards_loop, if_neg d1, if_neg d2]
      exact ih m hnd'

/-- Claim C5: the reconciliation diff of `check_rewards` is a pure function of
(balance, observed guild roles, observed member roles), so recomputing from
identical inputs yields the identical diff; when every configured reward role
exists in the guild, the added roles are exactly the reward roles with
threshold ≤ balance not already held and the removed roles exactly the reward
roles with threshold > balance currently held; and recomputing against the
member role set produced by applying the diff yields an empty diff. -/
theorem C5_reward_diff_idempotent :
    (∀ honor g m, (∀ p ∈ REWARD_ROLES, p.2 ∈ g) →
      (check_rewards honor g m).2.1
          = (REWARD_ROLES.filter (fun p => decide (p.1 ≤ honor ∧ p.2 ∉ m))).map Prod.snd
        ∧ (check_rewards honor g m).2.2
          = (REWARD_ROLES.filter (fun p => decide (honor < p.1 ∧ p.2 ∈ m))).map Prod.snd)
    ∧ (∀ honor g m,
        check_rewards honor g ((check_rewards honor g m).1)
          = ((check_rewards honor g m).1, [], [])) := by
  have hnd : (REWARD_ROLES.map Prod.snd).Nodup := by decide
  constructor
  · intro honor g m hg
    unfold check_rewards
    obtain ⟨ha, hr⟩ := check_rewards_loop_diff honor g REWARD_ROLES m hnd
    refine ⟨?_, ?_⟩
    · rw [ha]
      congr 1
      apply List.filter_congr
      intro p hp
      simp [hg p hp]
    · rw [hr]
      congr 1
      apply List.filter_congr
      intro p hp
      simp [hg p hp]
  · intro honor g m
    exact check_rewards_loop_fix honor g REWARD_ROLES m hnd

/-- Witness for C5: at balance 60000, with all three reward roles in the guild
and the member holding only Star, the diff is characterised by the two
filters (it adds VIP and Elite and removes Star). -/
theorem C5_reward_diff_idempotent_witness :
    (check_rewards 60000 ["VIP", "Elite", "Star"] ["Star"]).2.1
        = (REWARD_ROLES.filter
            (fun p => decide (p.1 ≤ 60000 ∧ p.2 ∉ (["Star"] : List String)))).map Prod.snd
      ∧ (check_rewards 60000 ["VIP", "Elite", "Star"] ["Star"]).2.2
        = (REWARD_ROLES.filter
            (fun p => decide ((60000 : Int) < p.1 ∧ p.2 ∈ (["Star"] : List String)))).map Prod.snd :=
  C5_reward_diff_idempotent.1 60000 ["VIP", "Elite", "Star"] ["Star"] (by decide)

/-- Counterexample to C6 as stated: inject a failure into the ledger append
only (user 1, delta +5, fresh store).  The operation fails, yet the visible
store has balance 5 for user 1 and an empty ledger — the delta was applied
and a partial mutation (balance without log) is visible. -/
theorem C6_counterexample :
    (add_user_honor_f false true emptyStore 1 5 "" none).isOk = false
    ∧ get_user_honor ((add_user_honor_f false true emptyStore 1 5 "" none).state) 1 = 5
    ∧ ((add_user_honor_f false true emptyStore 1 5 "" none).state).honor_log = [] := by
  refine ⟨rfl, by decide, rfl⟩

/-- Claim C6 amended: the two writes of `add_user_honor` are not atomic
together.  A failure of the balance write leaves the store untouched; a
failure of the subsequent ledger append leaves the already-committed balance
update visible with no new log entry; only when both statements succeed does
the operation equal `add_user_honor`. -/
theorem C6_amended_no_atomicity (s : Store) (u : Nat) (d : Int) (r : String)
    (b : Option Nat) :
    add_user_honor_f true false s u d r b = .err s
    ∧ (add_user_honor_f false true s u d r b).state.honor_log = s.honor_log
    ∧ get_user_honor ((add_user_honor_f false true s u d r b).state) u
        = clampHonor (get_user_honor s u + d)
    ∧ add_user_honor_f false false s u d r b = .ok (add_user_honor s u d r b) := by
  refine ⟨rfl, rfl, ?_, rfl⟩
  simp [add_user_honor_f, OpResult.state, set_user_honor, get_user_honor]

lemma latestTs_append (l : List Int) (a : Int) :
    latestTs (l ++ [a])
      = some (match latestTs l with | none => a | some m => max m a) := by
  induction l with
  | nil => rfl
  | cons t ts ih =>
    show latestTs (t :: (ts ++ [a])) = _
    simp only [latestTs, ih]
    cases hts : latestTs ts with
    | none => simp [latestTs, hts]
    | some m => simp [latestTs, hts, max_assoc]

lemma latestTs_ge_append (l : List Int) (a : Int) :
    ∃ k, latestTs (l ++ [a]) = some k ∧ a ≤ k := by
  rw [latestTs_append]
  cases latestTs l with
  | none => exact ⟨a, rfl, le_refl a⟩
  | some m => exact ⟨max m a, rfl, le_max_right m a⟩

/-- Claim C7: `can_open_lootbox` is true when the user has no loot row, false
at the moment a lootbox is logged, and — once a most recent claim exists —
true exactly when at least 86400 seconds of wall-clock time have elapsed since
it (elapsed-time semantics, not a calendar-day boundary). -/
theorem C7_lootbox_cooldown :
    (∀ s u now, s.loot_log.filter (fun e => e.user_id == u) = [] →
      can_open_lootbox s u now = true)
    ∧ (∀ s u reward now, can_open_lootbox (log_lootbox s u reward now) u now = false)
    ∧ (∀ s u now last, lastLootTs s u = some last →
        (can_open_lootbox s u now = true ↔ 86400 ≤ now - last)) := by
  refine ⟨?_, ?_, ?_⟩
  · intro s u now h
    unfold can_open_lootbox lastLootTs
    rw [h]
    rfl
  · intro s u reward now
    unfold can_open_lootbox lastLootTs log_lootbox
    simp only [List.filter_append, List.map_append]
    have hfil : List.filter (fun e => e.user_id == u) [(⟨u, now, reward⟩ : LootEntry)]
        = [⟨u, now, reward⟩] := by simp
    rw [hfil]
    have hmap : List.map LootEntry.ts [(⟨u, now, reward⟩ : LootEntry)] = [now] := rfl
    rw [hmap]
    obtain ⟨k, hk, hak⟩ :=
      latestTs_ge_append ((s.loot_log.filter (fun e => e.user_id == u)).map LootEntry.ts) now
    rw [hk]
    simp only [decide_eq_false_iff_not]
    omega
  · intro s u now last h
    unfold can_open_lootbox
    rw [h]
    simp

/-- Witness for C7: fresh store at clock 0; log a lootbox at clock 100; the
box is reopenable at clock 86500 since 86400 seconds have elapsed. -/
theorem C7_lootbox_cooldown_witness :
    can_open_lootbox emptyStore 1 0 = true
    ∧ can_open_lootbox (log_lootbox emptyStore 1 500 100) 1 100 = false
    ∧ (can_open_lootbox (log_lootbox emptyStore 1 500 100) 1 86500 = true
        ↔ 86400 ≤ (86500 : Int) - 100) :=
  ⟨C7_lootbox_cooldown.1 emptyStore 1 0 rfl,
   C7_lootbox_cooldown.2.1 emptyStore 1 500 100,
   C7_lootbox_cooldown.2.2 (log_lootbox emptyStore 1 500 100) 1 86500 100 (by decide)⟩

/-- Counterexample to C8 as stated: with one entry whose reason is `HELPED`,
querying `helped` counts 1 under the code's `LIKE` match (ASCII
case-insensitive), while the claim's case-sensitive count is 0. -/
theorem C8_counterexample :
    get_achievement_count storeHelped 1 "helped" = 1
    ∧ count_reason_case_sensitive storeHelped 1 "helped" = 0 := by
  constructor <;> decide

lemma likeMatch_percent_nil : ∀ t : List Char, likeMatch ['%'] t = true := by
  intro t
  induction t with
  | nil => rfl
  | cons c ts ih =>
    show ((c :: ts).tails).any (fun suffix => likeMatch [] suffix) = true
    rw [List.tails_cons, List.any_cons]
    have h2 : (ts.tails).any (fun suffix => likeMatch [] suffix) = true := ih
    rw [h2]
    simp

lemma likeMatch_literal :
    ∀ (q : List Char), '%' ∉ q → '_' ∉ q →
      ∀ t : List Char,
        (likeMatch (q ++ ['%']) t = true ↔ (q.map foldAscii) <+: (t.map foldAscii)) := by
  intro q
  induction q with
  | nil =>
    intro _ _ t
    simp [likeMatch_percent_nil t]
  | cons a q' ih =>
    intro hq1 hq2 t
    have ha1 : a ≠ '%' := fun h => hq1 (h ▸ List.mem_cons_self a q')
    have ha2 : a ≠ '_' := fun h => hq2 (h ▸ List.mem_cons_self a q')
    have hq1' : '%' ∉ q' := fun h => hq1 (List.mem_cons_of_mem a h)
    have hq2' : '_' ∉ q' := fun h => hq2 (List.mem_cons_of_mem a h)
    cases t with
    | nil =>
      show likeMatch (a :: (q' ++ ['%'])) [] = true ↔ _
      simp only [likeMatch, if_neg ha1]
      simp
    | cons c ts =>
      show likeMatch (a :: (q' ++ ['%'])) (c :: ts) = true ↔ _
      simp only [likeMatch, if_neg ha1]
      rw [Bool.and_eq_true, Bool.or_eq_true]
      rw [List.map_cons, List.map_cons, List.cons_prefix_cons]
      constructor
      · rintro ⟨hc, hrest⟩
        refine ⟨?_, (ih hq1' hq2' ts).mp hrest⟩
        rcases hc with hc | hc
        · exact absurd (by simpa using hc) ha2
        · simpa using hc
      · rintro ⟨hc, hrest⟩
        exact ⟨Or.inr (by simpa using hc), (ih hq1' hq2' ts).mpr hrest⟩

lemma likeMatch_pattern_infix (q : List Char) (hq1 : '%' ∉ q) (hq2 : '_' ∉ q)
    (t : List Char) :
    likeMatch ('%' :: q ++ ['%']) t = true
      ↔ (q.map foldAscii) <:+: (t.map foldAscii) := by
  show ((t.tails).any (fun suffix => likeMatch (q ++ ['%']) suffix) = true) ↔ _
  rw [List.any_eq_true]
  constructor
  · rintro ⟨s, hs, hmatch⟩
    have hsuffix : s <:+ t := (List.mem_tails s t).mp hs
    have hpref : (q.map foldAscii) <+: (s.map foldAscii) :=
      (likeMatch_literal q hq1 hq2 s).mp hmatch
    exact List.infix_iff_prefix_suffix.mpr
      ⟨s.map foldAscii, hpref, hsuffix.map foldAscii⟩
  · intro hinf
    obtain ⟨mid, hpref, hsuf⟩ := List.infix_iff_prefix_suffix.mp hinf
    have hmid : mid = (t.map foldAscii).drop
        ((t.map foldAscii).length - mid.length) := List.suffix_iff_eq_drop.mp hsuf
    refine ⟨t.drop ((t.map foldAscii).length - mid.length), ?_, ?_⟩
    · exact (List.mem_tails _ t).mpr (List.drop_suffix _ t)
    · apply (likeMatch_literal q hq1 hq2 _).mpr
      rw [List.map_drop, ← hmid]
      exact hpref

/-- Claim C8 amended: `get_achievement_count` counts the user's ledger entries
whose reason contains the query as an ASCII-case-insensitive substring
(SQLite's default `LIKE` semantics), provided the query itself contains no
`LIKE` wildcard (`%` or `_`); a reason containing the query in a different
ASCII letter case is counted. -/
theorem C8_amended_like_counts (s : Store) (u : Nat) (q : String)
    (hq1 : '%' ∉ q.toList) (hq2 : '_' ∉ q.toList) :
    get_achievement_count s u q
      = (s.honor_log.filter (fun e => e.user_id == u
          && decide ((q.toList.map foldAscii) <:+: (e.reason.toList.map foldAscii)))).length := by
  unfold get_achievement_count
  congr 1
  apply List.filter_congr
  intro e he
  have hiff := likeMatch_pattern_infix q.toList hq1 hq2 e.reason.toList
  have hbool : likeMatch ('%' :: q.toList ++ ['%']) e.reason.toList
      = decide ((q.toList.map foldAscii) <:+: (e.reason.toList.map foldAscii)) := by
    by_cases hp : (q.toList.map foldAscii) <:+: (e.reason.toList.map foldAscii)
    · rw [hiff.mpr hp, decide_eq_true hp]
    · have hne : likeMatch ('%' :: q.toList ++ ['%']) e.reason.toList ≠ true :=
        fun h => hp (hiff.mp h)
      have hfalse : likeMatch ('%' :: q.toList ++ ['%']) e.reason.toList = false := by
        cases hval : likeMatch ('%' :: q.toList ++ ['%']) e.reason.toList
        · rfl
        · exact absurd hval hne
      rw [hfalse, decide_eq_false hp]
  rw [hbool]

/-- Witness for C8's amended claim at the `HELPED` store and wildcard-free
query `helped`. -/
theorem C8_amended_like_counts_witness :
    get_achievement_count storeHelped 1 "helped"
      = (storeHelped.honor_log.filter (fun e => e.user_id == 1
          && decide ((("helped".toList).map foldAscii)
              <:+: ((e.reason.toList).map foldAscii)))).length :=
  C8_amended_like_counts storeHelped 1 "helped" (by decide) (by decide)

lemma keepRole_iff (r : Role) :
    keepRole r = true ↔ (r.is_default = true ∨ r.adminPerm = true
      ∨ "mod".toList <:+: (r.name.toList.map foldAscii)
      ∨ "admin".toList <:+: (r.name.toList.map foldAscii)) := by
  unfold keepRole
  simp [Bool.or_eq_true, or_assoc]

/-- Claim C10: the removal pass of `update_member_title` removes every role
the member holds except the guild default role, roles with administrator
permission, and roles whose lower-cased name contains `mod` or `admin`; in
particular a role unrelated to ranks or reward thresholds (`Gamer`) and even
the reward role `VIP` are stripped, while `Moderator` survives. -/
theorem C10_update_member_title_strips_roles :
    (∀ roles r, r ∈ update_member_title_removals roles
        ↔ r ∈ roles ∧ ¬(r.is_default = true ∨ r.adminPerm = true
            ∨ "mod".toList <:+: (r.name.toList.map foldAscii)
            ∨ "admin".toList <:+: (r.name.toList.map foldAscii)))
    ∧ (∀ roles r, r ∈ update_member_title_kept roles
        ↔ r ∈ roles ∧ (r.is_default = true ∨ r.adminPerm = true
            ∨ "mod".toList <:+: (r.name.toList.map foldAscii)
            ∨ "admin".toList <:+: (r.name.toList.map foldAscii)))
    ∧ (⟨"Gamer", false, false⟩ : Role) ∈ update_member_title_removals
        [⟨"Gamer", false, false⟩, ⟨"Moderator", false, false⟩, ⟨"VIP", false, false⟩]
    ∧ (⟨"VIP", false, false⟩ : Role) ∈ update_member_title_removals
        [⟨"Gamer", false, false⟩, ⟨"Moderator", false, false⟩, ⟨"VIP", false, false⟩]
    ∧ (⟨"Moderator", false, false⟩ : Role) ∉ update_member_title_removals
        [⟨"Gamer", false, false⟩, ⟨"Moderator", false, false⟩, ⟨"VIP", false, false⟩] := by
  refine ⟨?_, ?_, by decide, by decide, by decide⟩
  · intro roles r
    unfold update_member_title_removals
    rw [List.mem_filter]
    constructor
    · rintro ⟨h1, h2⟩
      refine ⟨h1, fun hc => ?_⟩
      simp only [Bool.not_eq_eq_eq_not, Bool.not_true] at h2
      rw [(keepRole_iff r).mpr hc] at h2
      cases h2
    · rintro ⟨h1, h2⟩
      refine ⟨h1, ?_⟩
      cases hk : keepRole r
      · rfl
      · exact absurd ((keepRole_iff r).mp hk) h2
  · intro roles r
    unfold update_member_title_kept
    rw [List.mem_filter, keepRole_iff]
